import Mathlib

/-!
Verification of the LiveSync-compatible vault sync scripts.

The Python sources are shallowly embedded:
* strings are lists of Unicode code points (`List Nat`), byte strings are
  lists of bytes (`List Nat`, each < 256);
* JavaScript-style 32-bit signed arithmetic (`imul`, `to_signed32`) is
  modelled on `Int` with explicit reduction modulo 2^32;
* the 64-bit xxHash is modelled on `Nat` with explicit reduction modulo 2^64;
* while loops become fuel-indexed structural recursions, invoked with enough
  fuel for the loop to run to completion.
-/

namespace VaultSync

/-! ## 32-bit arithmetic helpers (livesync_compat.py) -/

/-- Python `n & 0xFFFFFFFF` then reinterpretation as a signed value:
`to_signed32` from livesync_compat.py. -/
def to_signed32 (n : Int) : Int :=
  let m := n % 4294967296
  if 2147483648 ≤ m then m - 4294967296 else m

/-- JavaScript `Math.imul` emulation: `imul` from livesync_compat.py. -/
def imul (a b : Int) : Int :=
  let r := ((a % 4294967296) * (b % 4294967296)) % 4294967296
  if 2147483648 ≤ r then r - 4294967296 else r

def WINDOW : Nat := 48

/-- `PRIME ** (WINDOW - 1)` computed with the wrapping 32-bit multiply,
exactly as the `for _ in range(WINDOW - 1)` loop does. -/
def p_pow_w : Int := (List.range (WINDOW - 1)).foldl (fun acc _ => imul acc 31) 1

/-- Unsigned reinterpretation of the signed 32-bit hash (`h & 0xFFFFFFFF`). -/
def unsigned32 (h : Int) : Nat := (h % 4294967296).toNat

/-- Test `(b & 0xc0) == 0x80`: is `b` a UTF-8 continuation byte. -/
def is_continuation_byte (b : Nat) : Bool := (b &&& 192) == 128

/-! ## The Rabin-Karp chunker (split_into_chunks) -/

/-- Python slice `data[a:b]`. -/
def pySlice (data : List Nat) (a b : Nat) : List Nat := (data.drop a).take (b - a)

/-- One rolling-hash update of the loop body of `split_into_chunks`. -/
def stepHash (data : List Nat) (start pos : Nat) (h : Int) : Int :=
  if start + WINDOW ≤ pos then
    to_signed32
      (imul (to_signed32 (h - imul (Int.ofNat (data.getD (pos - WINDOW) 0)) p_pow_w)) 31
        + Int.ofNat (data.getD pos 0))
  else
    to_signed32 (imul h 31 + Int.ofNat (data.getD pos 0))

/-- Boundary judgment of `split_into_chunks`
(`BOUNDARY_PATTERN = 1`; the modulus uses the unsigned hash). -/
def boundary_candidate (minc maxc modl size : Nat) (h : Int) : Bool :=
  (decide (minc ≤ size) && (unsigned32 h % modl == 1)) || decide (maxc ≤ size)

/-- The `is_safe_boundary` test: a candidate is unsafe iff the next byte
exists and is a UTF-8 continuation byte. -/
def chunk_safe (data : List Nat) (pos : Nat) : Bool :=
  !(decide (pos + 1 < data.length) && is_continuation_byte (data.getD (pos + 1) 0))

/-- The code after the while loop: yield remaining bytes, if any. -/
def finalizeChunks (data : List Nat) (start : Nat) (acc : List (List Nat)) :
    List (List Nat) :=
  if start < data.length then acc ++ [pySlice data start data.length] else acc

/-- The while loop of `split_into_chunks`, fuel-indexed.  State: current
position `pos`, chunk start `start`, rolling hash `h`, emitted chunks `acc`.
Invoked with `fuel = data.length` the recursion performs exactly the
iterations of the Python loop. -/
def splitLoop (data : List Nat) (minc maxc modl : Nat) :
    Nat → Nat → Nat → Int → List (List Nat) → List (List Nat)
  | 0, _pos, start, _h, acc => finalizeChunks data start acc
  | (fuel + 1), pos, start, h, acc =>
    if pos < data.length then
      if boundary_candidate minc maxc modl (pos - start + 1) (stepHash data start pos h) then
        if chunk_safe data pos then
          splitLoop data minc maxc modl fuel (pos + 1) (pos + 1) (stepHash data start pos h)
            (acc ++ [pySlice data start (pos + 1)])
        else
          splitLoop data minc maxc modl fuel (pos + 1) start (stepHash data start pos h) acc
      else
        splitLoop data minc maxc modl fuel (pos + 1) start (stepHash data start pos h) acc
    else finalizeChunks data start acc

/-- Average chunk size: `max(MIN_PIECE_SIZE_TEXT, length // SPLIT_PIECE_COUNT_TEXT)`. -/
def chunkAvg (content : List Nat) : Nat := max 128 (content.length / 20)

/-- Maximum chunk size: `min(absolute_max_piece_size, avg_chunk_size * 5)`
at the default `absolute_max_piece_size = 250 * 1024`. -/
def chunkMax (content : List Nat) : Nat := min 256000 (chunkAvg content * 5)

/-- Minimum chunk size: `min(max(avg_chunk_size // 4, minimum_chunk_size), max_chunk_size)`
at the default `minimum_chunk_size = 20`. -/
def chunkMin (content : List Nat) : Nat :=
  min (max (chunkAvg content / 4) 20) (chunkMax content)

/-- `split_into_chunks` from livesync_compat.py with explicit parameters.
`content` is the UTF-8 byte sequence of the input string (the Python code
encodes the input string and works on those bytes; as long as boundaries
never split a code point, re-decoding the byte slices is lossless, so we
state all chunk-level properties on the byte level). -/
def split_into_chunks_with (absMax minimum : Nat) (content : List Nat) :
    List (List Nat) :=
  if content.length = 0 then []
  else
    let avg := max 128 (content.length / 20)
    let maxc := min absMax (avg * 5)
    let minc := min (max (avg / 4) minimum) maxc
    splitLoop content minc maxc avg content.length 0 0 0 []

/-- `split_into_chunks` at its default parameters
(`DEFAULT_MAX_PIECE_SIZE * 1024 = 256000`, `DEFAULT_MIN_CHUNK_SIZE = 20`). -/
def split_into_chunks (content : List Nat) : List (List Nat) :=
  split_into_chunks_with 256000 20 content

/-! ## xxHash64 (the `xxhash.xxh64(...).intdigest()` call), seed 0 -/

def xxP1 : Nat := 11400714785074694791
def xxP2 : Nat := 14029467366897019727
def xxP3 : Nat := 1609587929392839161
def xxP4 : Nat := 9650029242287828579
def xxP5 : Nat := 2870177450012600261

/-- Reduction modulo 2^64. -/
def m64 (n : Nat) : Nat := n % 18446744073709551616

/-- 64-bit left rotation (input below 2^64). -/
def rotl64 (x r : Nat) : Nat := m64 ((x <<< r) ||| (x >>> (64 - r)))

/-- The xxHash64 accumulator round. -/
def xxRound (acc input : Nat) : Nat :=
  m64 (rotl64 (m64 (acc + m64 (input * xxP2))) 31 * xxP1)

/-- The xxHash64 merge of one lane into the digest. -/
def xxMerge (h v : Nat) : Nat := m64 (m64 ((h ^^^ xxRound 0 v) * xxP1) + xxP4)

/-- Little-endian read of the first `k` bytes. -/
def readLE (k : Nat) (bs : List Nat) : Nat :=
  (bs.take k).foldr (fun b acc => b + 256 * acc) 0

/-- The 32-byte stripe loop of xxHash64. -/
def xxStripes : Nat → List Nat → Nat → Nat → Nat → Nat →
    Nat × Nat × Nat × Nat × List Nat
  | 0, bs, v1, v2, v3, v4 => (v1, v2, v3, v4, bs)
  | (fuel + 1), bs, v1, v2, v3, v4 =>
    if 32 ≤ bs.length then
      xxStripes fuel (bs.drop 32)
        (xxRound v1 (readLE 8 bs)) (xxRound v2 (readLE 8 (bs.drop 8)))
        (xxRound v3 (readLE 8 (bs.drop 16))) (xxRound v4 (readLE 8 (bs.drop 24)))
    else (v1, v2, v3, v4, bs)

/-- The 8-byte tail loop of xxHash64. -/
def xxTail8 : Nat → List Nat → Nat → Nat × List Nat
  | 0, bs, h => (h, bs)
  | (fuel + 1), bs, h =>
    if 8 ≤ bs.length then
      xxTail8 fuel (bs.drop 8)
        (m64 (m64 (rotl64 (h ^^^ xxRound 0 (readLE 8 bs)) 27 * xxP1) + xxP4))
    else (h, bs)

/-- The single-byte tail loop of xxHash64. -/
def xxBytes : List Nat → Nat → Nat
  | [], h => h
  | b :: t, h => xxBytes t (m64 (rotl64 (h ^^^ m64 (b * xxP5)) 11 * xxP1))

/-- The xxHash64 final avalanche. -/
def xxAvalanche (h0 : Nat) : Nat :=
  let h1 := h0 ^^^ (h0 >>> 33)
  let h2 := m64 (h1 * xxP2)
  let h3 := h2 ^^^ (h2 >>> 29)
  let h4 := m64 (h3 * xxP3)
  h4 ^^^ (h4 >>> 32)

/-- xxHash64 with seed 0 of a byte sequence, as an unsigned 64-bit value. -/
def xxh64 (bs : List Nat) : Nat :=
  let n := bs.length
  let st : Nat × List Nat :=
    if 32 ≤ n then
      let r := xxStripes n bs (m64 (xxP1 + xxP2)) xxP2 0 (18446744073709551616 - xxP1)
      (xxMerge (xxMerge (xxMerge (xxMerge
        (m64 (rotl64 r.1 1 + rotl64 r.2.1 7 + rotl64 r.2.2.1 12 + rotl64 r.2.2.2.1 18))
        r.1) r.2.1) r.2.2.1) r.2.2.2.1,
       r.2.2.2.2)
    else (xxP5, bs)
  let t := xxTail8 n st.2 (m64 (st.1 + n))
  let u : Nat × List Nat :=
    if 4 ≤ t.2.length then
      (m64 (m64 (rotl64 (t.1 ^^^ m64 (readLE 4 t.2 * xxP1)) 23 * xxP2) + xxP3),
       t.2.drop 4)
    else t
  xxAvalanche (xxBytes u.2 u.1)

/-! ## Base36 encoding (int_to_base36) and chunk ids -/

/-- The digit alphabet `"0123456789abcdefghijklmnopqrstuvwxyz"`, as code points. -/
def base36Alphabet : List Nat :=
  [48, 49, 50, 51, 52, 53, 54, 55, 56, 57,
   97, 98, 99, 100, 101, 102, 103, 104, 105, 106, 107, 108, 109,
   110, 111, 112, 113, 114, 115, 116, 117, 118, 119, 120, 121, 122]

/-- `chars[d]` of int_to_base36. -/
def base36Digit (d : Nat) : Nat := base36Alphabet.getD d 0

/-- The `while n > 0` loop of int_to_base36, prepending digits. -/
def int_to_base36_go : Nat → Nat → List Nat → List Nat
  | 0, _, acc => acc
  | (fuel + 1), n, acc =>
    if n = 0 then acc
    else int_to_base36_go fuel (n / 36) (base36Digit (n % 36) :: acc)

/-- `int_to_base36` from livesync_compat.py: zero maps to `"0"`, otherwise the
value is masked to unsigned 64 bits and written in base 36 (64 fuel covers
the at most 13 digits of a 64-bit value). -/
def int_to_base36 (n : Nat) : List Nat :=
  if n = 0 then [48] else int_to_base36_go 64 (n % 18446744073709551616) []

/-- Numeric value of a base36 digit string (used to state that
`int_to_base36` really is a base36 encoding). -/
def base36Inv (c : Nat) : Nat :=
  if 48 ≤ c ∧ c ≤ 57 then c - 48 else if 97 ≤ c ∧ c ≤ 122 then c - 87 else 0

def base36Val (ds : List Nat) : Nat := ds.foldl (fun a d => a * 36 + base36Inv d) 0

/-! ## UTF-8 encoding and decimal rendering (for the chunk id hash input) -/

/-- UTF-8 encoding of one Unicode code point. -/
def utf8EncodeChar (cp : Nat) : List Nat :=
  if cp < 128 then [cp]
  else if cp < 2048 then [192 + cp / 64, 128 + cp % 64]
  else if cp < 65536 then [224 + cp / 4096, 128 + cp / 64 % 64, 128 + cp % 64]
  else [240 + cp / 262144, 128 + cp / 4096 % 64, 128 + cp / 64 % 64, 128 + cp % 64]

/-- UTF-8 bytes of a code-point string (Python str.encode). -/
def utf8Encode (s : List Nat) : List Nat := (s.map utf8EncodeChar).flatten

/-- The `while`-style digit loop behind `str(n)`. -/
def decimalReprGo : Nat → Nat → List Nat → List Nat
  | 0, _, acc => acc
  | (fuel + 1), n, acc =>
    if n = 0 then acc else decimalReprGo fuel (n / 10) ((48 + n % 10) :: acc)

/-- Python `str(n)` for a natural number, as code points. -/
def decimalRepr (n : Nat) : List Nat :=
  if n = 0 then [48] else decimalReprGo (n + 1) n []

/-- `generate_chunk_id` from livesync_compat.py.  The hash input is the
f-string `f"{data}-{len(data)}"` — the string itself, a hyphen-minus, and the
decimal rendering of `len(data)`, which in Python counts CODE POINTS — and
that concatenation is then UTF-8 encoded and hashed with xxHash64 (seed 0).
The id is `"h:"` (code points 104, 58) followed by the base36 digits. -/
def generate_chunk_id (s : List Nat) : List Nat :=
  [104, 58] ++ int_to_base36 (xxh64 (utf8Encode (s ++ [45] ++ decimalRepr s.length)))

/-- The chunk id exactly as claim C1 words it: the decimal length suffix is
the UTF-8 BYTE length of `s`, not the code-point count. -/
def claim_chunk_id (s : List Nat) : List Nat :=
  [104, 58] ++ int_to_base36 (xxh64 (utf8Encode s ++ [45] ++ decimalRepr (utf8Encode s).length))

/-! ## Pull engine: per-document assembly (vault-pull.py, pull_documents) -/

/-- `chunk_cache.get(chunk_id)`: association-list lookup modelling the dict. -/
def chunkLookup (cache : List (List Nat × List Nat)) (cid : List Nat) :
    Option (List Nat) :=
  match cache with
  | [] => none
  | (k, v) :: t => if k = cid then some v else chunkLookup t cid

/-- The assembly loop of Phase 4 of `pull_documents`: walk `children`,
append the cached data of each found chunk to `parts`, count the missing
ones.  Returns (joined parts, missing count). -/
def pull_assemble (children : List (List Nat))
    (cache : List (List Nat × List Nat)) : List Nat × Nat :=
  children.foldl
    (fun st cid =>
      match chunkLookup cache cid with
      | some d => (st.1 ++ d, st.2)
      | none => (st.1, st.2 + 1))
    ([], 0)

/-- What `pull_documents` decides to do with one remote file document. -/
inductive PullDecision
  | skipped
  | written (content : List Nat) (missing : Nat)
deriving DecidableEq

/-- Phase 1 + Phase 4 of `pull_documents` for a single document:
excluded or unchanged documents are skipped in Phase 1 (modelled by the two
booleans); otherwise Phase 4 assembles the content — from `data` when
`children` is empty, else by concatenating the cached chunks — and always
proceeds to the write, whatever the missing-chunk count is. -/
def pull_process_doc (excluded changedSkip : Bool)
    (children : List (List Nat)) (data : List Nat)
    (cache : List (List Nat × List Nat)) : PullDecision :=
  if excluded then .skipped
  else if changedSkip then .skipped
  else if children = [] then .written data 0
  else .written (pull_assemble children cache).1 (pull_assemble children cache).2

/-! ## Pull engine: base64 detection (vault-pull.py, try_decode_base64) -/

/-- Value of one base64 alphabet character (strict: anything else,
including any non-ASCII code point, is rejected). -/
def b64Val (c : Nat) : Option Nat :=
  if 65 ≤ c ∧ c ≤ 90 then some (c - 65)
  else if 97 ≤ c ∧ c ≤ 122 then some (c - 71)
  else if 48 ≤ c ∧ c ≤ 57 then some (c + 4)
  else if c = 43 then some 62
  else if c = 47 then some 63
  else none

/-- Strict base64 decoding by groups of four characters, as
`base64.b64decode(s, validate=True)` behaves: the length must be a multiple
of 4, every character must be in the alphabet except for at most two
trailing padding `=` (61), and the packed bits are emitted as bytes. -/
def b64Groups : Nat → List Nat → Option (List Nat)
  | _, [] => some []
  | 0, _ => none
  | (fuel + 1), c1 :: c2 :: c3 :: c4 :: rest =>
    match b64Val c1, b64Val c2 with
    | some v1, some v2 =>
      match rest with
      | [] =>
        if c3 = 61 ∧ c4 = 61 then some [v1 * 4 + v2 / 16]
        else
          match b64Val c3 with
          | some v3 =>
            if c4 = 61 then some [v1 * 4 + v2 / 16, v2 % 16 * 16 + v3 / 4]
            else
              match b64Val c4 with
              | some v4 => some [v1 * 4 + v2 / 16, v2 % 16 * 16 + v3 / 4, v3 % 4 * 64 + v4]
              | none => none
          | none => none
      | _ :: _ =>
        match b64Val c3, b64Val c4 with
        | some v3, some v4 =>
          match b64Groups fuel rest with
          | some ds =>
            some ((v1 * 4 + v2 / 16) :: (v2 % 16 * 16 + v3 / 4) :: (v3 % 4 * 64 + v4) :: ds)
          | none => none
        | _, _ => none
    | _, _ => none
  | _, _ => none

/-- `base64.b64decode(content, validate=True)`, `none` when it raises. -/
def b64decode_strict (s : List Nat) : Option (List Nat) := b64Groups s.length s

/-- Strict UTF-8 decoding (Python bytes.decode, `none` when it raises):
rejects truncated sequences, bad continuation bytes, overlong forms,
surrogates and values above U+10FFFF. -/
def utf8DecodeGo : Nat → List Nat → Option (List Nat)
  | _, [] => some []
  | 0, _ => none
  | (fuel + 1), b :: rest =>
    if b < 128 then (utf8DecodeGo fuel rest).map (b :: ·)
    else if 194 ≤ b ∧ b ≤ 223 then
      match rest with
      | b2 :: rest2 =>
        if 128 ≤ b2 ∧ b2 < 192 then
          (utf8DecodeGo fuel rest2).map (((b - 192) * 64 + (b2 - 128)) :: ·)
        else none
      | [] => none
    else if 224 ≤ b ∧ b ≤ 239 then
      match rest with
      | b2 :: b3 :: rest2 =>
        if (if b = 224 then 160 ≤ b2 ∧ b2 < 192
            else if b = 237 then 128 ≤ b2 ∧ b2 < 160
            else 128 ≤ b2 ∧ b2 < 192) ∧ 128 ≤ b3 ∧ b3 < 192 then
          (utf8DecodeGo fuel rest2).map
            (((b - 224) * 4096 + (b2 - 128) * 64 + (b3 - 128)) :: ·)
        else none
      | _ => none
    else if 240 ≤ b ∧ b ≤ 244 then
      match rest with
      | b2 :: b3 :: b4 :: rest2 =>
        if (if b = 240 then 144 ≤ b2 ∧ b2 < 192
            else if b = 244 then 128 ≤ b2 ∧ b2 < 144
            else 128 ≤ b2 ∧ b2 < 192) ∧ 128 ≤ b3 ∧ b3 < 192 ∧ 128 ≤ b4 ∧ b4 < 192 then
          (utf8DecodeGo fuel rest2).map
            (((b - 240) * 262144 + (b2 - 128) * 4096 + (b3 - 128) * 64 + (b4 - 128)) :: ·)
        else none
      | _ => none
    else none

def utf8DecodeStrict (bs : List Nat) : Option (List Nat) :=
  utf8DecodeGo bs.length bs

/-- Result of `try_decode_base64`: a text payload (str) or a binary one
(bytes), matching the `(content, is_binary)` convention of the source. -/
inductive DecodedContent
  | text (s : List Nat)
  | binary (b : List Nat)
deriving DecidableEq

/-- `try_decode_base64` from vault-pull.py. -/
def try_decode_base64 (content : List Nat) : DecodedContent × Bool :=
  if 10 ∈ content ∨ content.length < 4 then (.text content, false)
  else
    match b64decode_strict content with
    | none => (.text content, false)
    | some decoded =>
      match utf8DecodeStrict decoded with
      | some cps => (.text cps, false)
      | none => (.binary decoded, true)

/-! ## Push engine: change filter (vault-push.py, push_documents) -/

/-- A JSON scalar as found in the `mtime` field of a remote document. -/
inductive PyVal
  | int (n : Int)
  | str (s : List Nat)

/-- A remote file document as used by the change filter. -/
structure RemoteDoc where
  mtime : Option PyVal

/-- `remote_docs.get(rel_path)`. -/
def lookupDoc (docs : List (List Nat × RemoteDoc)) (path : List Nat) :
    Option RemoteDoc :=
  match docs with
  | [] => none
  | (p, d) :: t => if p = path then some d else lookupDoc t path

/-- Normalization of the remote `mtime` in `push_documents`: a missing field
defaults to 0; an integer is used as is; a string containing `T` (84) is
parsed as ISO-8601 (via the oracle `parseIso`), any other string with
`int()` (oracle `parseInt`); a failed parse yields 0. -/
def remote_mtime_ms (parseIso parseInt : List Nat → Option Int) :
    Option PyVal → Int
  | none => 0
  | some (.int n) => n
  | some (.str s) => if 84 ∈ s then (parseIso s).getD 0 else (parseInt s).getD 0

/-- The change filter of `push_documents`: skip iff not `--force`, a remote
document exists at the file path, and its normalized mtime is ≥ the local
mtime in milliseconds. -/
def push_should_skip (parseIso parseInt : List Nat → Option Int) (force : Bool)
    (docs : List (List Nat × RemoteDoc)) (path : List Nat)
    (local_mtime : Int) : Bool :=
  if force then false
  else
    match lookupDoc docs path with
    | none => false
    | some d => decide (local_mtime ≤ remote_mtime_ms parseIso parseInt d.mtime)

/-! ## Push engine: metadata PUT with conflict retry (vault-push.py, push_file) -/

/-- Outcome of one `put_document` call, i.e. of `couchdb_request` with
method PUT: `ok` for a 2xx response, `conflict` for a 409 (turned into the
dict with `error = conflict`), `err` for a `None` return (404) or a
response body carrying an error field, and `raised` for every other HTTP
error or network failure, on which `couchdb_request` RAISES `RuntimeError`
(vault-push.py lines 139-144) instead of returning. -/
inductive PutResult
  | ok
  | conflict
  | err
  | raised
deriving DecidableEq

/-- Outcome of the `_rev` re-fetch (`get_document_rev`, itself a
`couchdb_request` GET): a revision was found, the document had no revision
(missing), or the request raised. -/
inductive FetchResult
  | found (rev : List Nat)
  | missing
  | raised
deriving DecidableEq

/-- What the metadata PUT sequence of `push_file` produces for one file:
either push_file returns normally with a final result value and a number of
retry PUTs performed, or an exception escaped push_file (and, since neither
push_file nor the push_documents loop catches it, the whole run). -/
inductive MetaOutcome
  | done (final : PutResult) (retries : Nat)
  | aborted
deriving DecidableEq

/-- The metadata PUT sequence of `push_file` (lines 361-373): a first PUT;
on conflict, one `_rev` re-fetch, and — only if a revision was found — one
retry PUT.  A `raised` outcome of any of the three operations propagates as
an uncaught exception (`aborted`); otherwise push_file falls through to the
`result is None or result.get(error)` check with the final result value.
`first` is the outcome of the first PUT, `refetch` of the re-fetch,
`second` of the retry PUT (consulted only if issued). -/
def push_file_meta (first : PutResult) (refetch : FetchResult)
    (second : PutResult) : MetaOutcome :=
  match first with
  | .raised => .aborted
  | .conflict =>
    match refetch with
    | .raised => .aborted
    | .missing => .done .conflict 0
    | .found _ =>
      match second with
      | .raised => .aborted
      | r => .done r 1
  | r => .done r 0

/-- Per-file outcome classification of the `push_documents` loop. -/
inductive FileOutcome
  | created
  | updated
  | error
  | skipped
deriving DecidableEq

/-- Counters accumulated by `push_documents`. -/
structure PushStats where
  created : Nat
  updated : Nat
  skipped : Nat
  errors : Nat
deriving DecidableEq

/-- One iteration of the stats bookkeeping in the `push_documents` loop. -/
def push_stats_step (s : PushStats) : FileOutcome → PushStats
  | .created => { s with created := s.created + 1 }
  | .updated => { s with updated := s.updated + 1 }
  | .error => { s with errors := s.errors + 1 }
  | .skipped => { s with skipped := s.skipped + 1 }

/-- The stats bookkeeping of `push_documents` over the per-file outcomes of
the files that were actually processed. -/
def push_documents_stats (outcomes : List FileOutcome) : PushStats :=
  outcomes.foldl push_stats_step ⟨0, 0, 0, 0⟩

/-- The `push_documents` loop (lines 412-453).  Each item is the result of
one `push_file` call: `some outcome` when it returned, `none` when it
raised.  A returned outcome is folded into the counters and the loop goes
on; an exception is not caught anywhere in `push_documents`, so it kills
the loop — later files are never processed and no summary is produced
(`main` catches it only to print the error and `sys.exit(1)`). -/
def push_documents_run : List (Option FileOutcome) → PushStats → Option PushStats
  | [], s => some s
  | none :: _, _ => none
  | some o :: t, s => push_documents_run t (push_stats_step s o)

/-! ## Concrete inputs used for counterexamples and witnesses -/

/-- 639 NUL bytes followed by the UTF-8 encoding of U+00E9 (0xC3 0xA9).
For this input the derived sizes are avg = 128, max_chunk = 640,
min_chunk = 32, and the rolling hash stays 0 on the NUL prefix. -/
def exC3 : List Nat := List.replicate 639 0 ++ [195, 169]

/-- A 162-byte ASCII input on which the chunker emits three chunks of
lengths 45, 53 and 64. -/
def exC45 : List Nat :=
  [99, 101, 32, 106, 104, 107, 110, 103, 97, 101, 100, 113, 98, 122, 107, 109,
   107, 10, 98, 104, 100, 112, 101, 115, 103, 105, 115, 114, 108, 102, 120,
   106, 98, 10, 10, 99, 100, 113, 103, 114, 113, 118, 110, 113, 97, 121, 113,
   101, 115, 114, 107, 115, 121, 122, 102, 111, 110, 111, 97, 108, 118, 97,
   10, 109, 108, 118, 32, 114, 118, 116, 97, 107, 112, 111, 98, 107, 107, 109,
   122, 106, 101, 109, 115, 116, 98, 115, 100, 112, 100, 100, 116, 102, 98,
   98, 106, 32, 103, 113, 100, 111, 112, 112, 98, 110, 104, 104, 107, 120,
   122, 102, 109, 115, 114, 104, 118, 112, 102, 103, 114, 115, 114, 117, 103,
   102, 118, 120, 111, 10, 121, 97, 117, 103, 99, 122, 121, 99, 114, 122, 100,
   100, 105, 115, 104, 103, 105, 104, 112, 108, 120, 119, 111, 118, 109, 114,
   104, 117, 111, 10, 32, 113, 100, 113]

/-! ## Generic properties of the chunker loop -/

theorem pySlice_append_drop (data : List Nat) (a b : Nat) (hab : a ≤ b) :
    pySlice data a b ++ data.drop b = data.drop a := by
  have h1 : data.drop b = List.drop (b - a) (List.drop a data) := by
    rw [List.drop_drop]; congr 1; omega
  rw [pySlice, h1, List.take_append_drop]

theorem pySlice_to_length (data : List Nat) (start : Nat) :
    pySlice data start data.length = data.drop start := by
  apply List.take_of_length_le
  rw [List.length_drop]

theorem finalizeChunks_append (data : List Nat) (start : Nat)
    (acc : List (List Nat)) :
    finalizeChunks data start acc = acc ++ finalizeChunks data start [] := by
  unfold finalizeChunks
  split <;> simp

theorem splitLoop_finalize_of_le (data : List Nat) (minc maxc modl : Nat)
    (fuel pos start : Nat) (h : Int) (acc : List (List Nat))
    (hp : data.length ≤ pos) :
    splitLoop data minc maxc modl fuel pos start h acc
      = finalizeChunks data start acc := by
  cases fuel with
  | zero => rfl
  | succ f => simp only [splitLoop]; rw [if_neg (by omega)]

theorem splitLoop_append (data : List Nat) (minc maxc modl : Nat) :
    ∀ (fuel pos start : Nat) (h : Int) (acc : List (List Nat)),
    splitLoop data minc maxc modl fuel pos start h acc
      = acc ++ splitLoop data minc maxc modl fuel pos start h [] := by
  intro fuel
  induction fuel with
  | zero =>
    intro pos start h acc
    simp only [splitLoop]
    exact finalizeChunks_append data start acc
  | succ f ih =>
    intro pos start h acc
    simp only [splitLoop]
    split
    · split
      · split
        · rw [List.nil_append,
              ih (pos + 1) (pos + 1) _ (acc ++ [pySlice data start (pos + 1)]),
              ih (pos + 1) (pos + 1) _ ([pySlice data start (pos + 1)]),
              List.append_assoc]
        · exact ih (pos + 1) start _ acc
      · exact ih (pos + 1) start _ acc
    · exact finalizeChunks_append data start acc

theorem splitLoop_flatten (data : List Nat) (minc maxc modl : Nat) :
    ∀ (fuel pos start : Nat) (h : Int) (acc : List (List Nat)),
    start ≤ pos →
    (splitLoop data minc maxc modl fuel pos start h acc).flatten
      = acc.flatten ++ data.drop start := by
  intro fuel
  induction fuel with
  | zero =>
    intro pos start h acc _
    simp only [splitLoop, finalizeChunks]
    split
    · rw [List.flatten_append]
      simp [pySlice_to_length]
    · rename_i hns
      rw [List.drop_eq_nil_of_le (by omega), List.append_nil]
  | succ f ih =>
    intro pos start h acc hsp
    simp only [splitLoop]
    split
    · rename_i hp
      split
      · split
        · rw [ih (pos + 1) (pos + 1) _ _ (le_refl _), List.flatten_append]
          simp only [List.flatten, List.append_nil, List.flatten_nil]
          rw [List.append_assoc]
          congr 1
          exact pySlice_append_drop data start (pos + 1) (by omega)
        · exact ih (pos + 1) start _ _ (by omega)
      · exact ih (pos + 1) start _ _ (by omega)
    · rename_i hp
      simp only [finalizeChunks]
      split
      · rw [List.flatten_append]
        simp [pySlice_to_length]
      · rw [List.drop_eq_nil_of_le (by omega), List.append_nil]

/-- Head byte of the pending chunk: a nonempty slice starting at `start`
begins with `data[start]?`. -/
theorem pySlice_head (data : List Nat) (a b : Nat) (hab : a < b) :
    (pySlice data a b).head? = data[a]? := by
  rw [pySlice, List.head?_take, if_neg (by omega), List.head?_drop]

/-- Members of the chunker accumulator growth are nonempty slices. -/
theorem pySlice_length (data : List Nat) (a b : Nat) :
    (pySlice data a b).length = min (b - a) (data.length - a) := by
  rw [pySlice, List.length_take, List.length_drop]

theorem pySlice_ne_nil (data : List Nat) (a b : Nat) (hab : a < b)
    (ha : a < data.length) : pySlice data a b ≠ [] := by
  intro hnil
  have hl := pySlice_length data a b
  rw [hnil] at hl
  simp only [List.length_nil] at hl
  omega

/-- Unfolding of `split_into_chunks` on nonempty input. -/
theorem split_into_chunks_eq (content : List Nat) (h : content.length ≠ 0) :
    split_into_chunks content
      = splitLoop content (chunkMin content) (chunkMax content) (chunkAvg content)
          content.length 0 0 0 [] := by
  simp only [split_into_chunks, split_into_chunks_with, chunkMin, chunkMax, chunkAvg,
    if_neg h]

theorem splitLoop_ne_nil (data : List Nat) (minc maxc modl : Nat) :
    ∀ (fuel pos start : Nat) (h : Int) (acc : List (List Nat)),
    start ≤ pos →
    (∀ c ∈ acc, c ≠ []) →
    ∀ c ∈ splitLoop data minc maxc modl fuel pos start h acc, c ≠ [] := by
  have hfin : ∀ (start : Nat) (acc : List (List Nat)), (∀ c ∈ acc, c ≠ []) →
      ∀ c ∈ finalizeChunks data start acc, c ≠ [] := by
    intro start acc hacc c hc
    unfold finalizeChunks at hc
    split at hc
    · rename_i hlt
      rcases List.mem_append.mp hc with h1 | h1
      · exact hacc c h1
      · rw [List.mem_singleton.mp h1]
        exact pySlice_ne_nil data start data.length hlt hlt
    · exact hacc c hc
  intro fuel
  induction fuel with
  | zero =>
    intro pos start h acc hsp hacc
    exact hfin start acc hacc
  | succ f ih =>
    intro pos start h acc hsp hacc
    simp only [splitLoop]
    split
    · rename_i hp
      split
      · split
        · refine ih (pos + 1) (pos + 1) _ _ (le_refl _) ?_
          intro c hc
          rcases List.mem_append.mp hc with h1 | h1
          · exact hacc c h1
          · rw [List.mem_singleton.mp h1]
            exact pySlice_ne_nil data start (pos + 1) (by omega) (by omega)
        · exact ih (pos + 1) start _ _ (by omega) hacc
      · exact ih (pos + 1) start _ _ (by omega) hacc
    · exact hfin start acc hacc

/-- The safety guard, unfolded. -/
theorem chunk_safe_elim (data : List Nat) (pos : Nat)
    (hs : chunk_safe data pos = true) :
    ∀ b ∈ data[pos + 1]?, is_continuation_byte b = false := by
  intro b hb
  by_cases hlt : pos + 1 < data.length
  · have hb2 : data[pos + 1]? = some (data.getD (pos + 1) 0) := by
      rw [List.getD_eq_getElem?_getD, List.getElem?_eq_getElem hlt]
      rfl
    rw [hb2] at hb
    simp only [Option.mem_def, Option.some.injEq] at hb
    subst hb
    simp only [chunk_safe, Bool.not_eq_eq_eq_not, Bool.not_true, Bool.and_eq_false_imp,
      decide_eq_true_eq] at hs
    cases hcont : is_continuation_byte (data.getD (pos + 1) 0) with
    | false => rfl
    | true => exact absurd hcont (by simpa using hs hlt)
  · rw [List.getElem?_eq_none (by omega)] at hb
    exact absurd hb (by simp)

/-- Chain invariant for the boundary-safety relation on the finalizer. -/
theorem finalizeChunks_chain (data : List Nat) (start : Nat)
    (acc : List (List Nat))
    (hchain : List.Chain' (fun _ c2 => ∀ b ∈ c2.head?, is_continuation_byte b = false) acc)
    (hpend : acc = [] ∨ ∀ b ∈ data[start]?, is_continuation_byte b = false) :
    List.Chain' (fun _ c2 => ∀ b ∈ c2.head?, is_continuation_byte b = false)
      (finalizeChunks data start acc) := by
  unfold finalizeChunks
  split
  · rename_i hlt
    rcases hpend with rfl | hp
    · simp only [List.nil_append]
      exact List.chain'_singleton _
    · refine List.Chain'.append hchain (List.chain'_singleton _) ?_
      intro x _ y hy
      simp only [List.head?_cons, Option.mem_def, Option.some.injEq] at hy
      subst hy
      intro b hb
      rw [pySlice_head data start data.length hlt] at hb
      exact hp b hb
  · exact hchain

theorem splitLoop_boundary_chain (data : List Nat) (minc maxc modl : Nat) :
    ∀ (fuel pos start : Nat) (h : Int) (acc : List (List Nat)),
    start ≤ pos →
    List.Chain' (fun _ c2 => ∀ b ∈ c2.head?, is_continuation_byte b = false) acc →
    (acc = [] ∨ ∀ b ∈ data[start]?, is_continuation_byte b = false) →
    List.Chain' (fun _ c2 => ∀ b ∈ c2.head?, is_continuation_byte b = false)
      (splitLoop data minc maxc modl fuel pos start h acc) := by
  intro fuel
  induction fuel with
  | zero =>
    intro pos start h acc _ hchain hpend
    exact finalizeChunks_chain data start acc hchain hpend
  | succ f ih =>
    intro pos start h acc hsp hchain hpend
    simp only [splitLoop]
    split
    · rename_i hp
      split
      · split
        · rename_i hcand hsafe
          refine ih (pos + 1) (pos + 1) _ _ (le_refl _) ?_ (Or.inr (chunk_safe_elim data pos hsafe))
          rcases hpend with rfl | hpd
          · simp only [List.nil_append]
            exact List.chain'_singleton _
          · refine List.Chain'.append hchain (List.chain'_singleton _) ?_
            intro x _ y hy
            simp only [List.head?_cons, Option.mem_def, Option.some.injEq] at hy
            subst hy
            intro b hb
            rw [pySlice_head data start (pos + 1) (by omega)] at hb
            exact hpd b hb
        · exact ih (pos + 1) start _ _ (by omega) hchain hpend
      · exact ih (pos + 1) start _ _ (by omega) hchain hpend
    · exact finalizeChunks_chain data start acc hchain hpend

/-! ## Claim C6: round trip -/

theorem split_into_chunks_flatten (content : List Nat) :
    (split_into_chunks content).flatten = content := by
  by_cases hc : content.length = 0
  · rw [List.length_eq_zero.mp hc]
    rfl
  · rw [split_into_chunks_eq content hc,
      splitLoop_flatten content _ _ _ _ 0 0 0 [] (le_refl 0)]
    rfl

/-- Claim C6: concatenating, in order, the chunks returned by
`split_into_chunks` yields the input exactly; the empty input yields zero
chunks. -/
theorem c6_chunk_round_trip :
    (∀ content : List Nat, (split_into_chunks content).flatten = content) ∧
    split_into_chunks [] = [] :=
  ⟨split_into_chunks_flatten, rfl⟩

/-! ## Claim C7: no boundary before a UTF-8 continuation byte -/

/-- Claim C7: for every input, between any two consecutive emitted chunks the
first byte of the later chunk is never a UTF-8 continuation byte (top two
bits `10`); boundaries never split a multi-byte code point. -/
theorem c7_boundary_not_continuation (content : List Nat) :
    List.Chain' (fun _ c2 => ∀ b ∈ c2.head?, is_continuation_byte b = false)
      (split_into_chunks content) := by
  by_cases hc : content.length = 0
  · rw [List.length_eq_zero.mp hc]
    simp [split_into_chunks, split_into_chunks_with]
  · rw [split_into_chunks_eq content hc]
    exact splitLoop_boundary_chain content _ _ _ content.length 0 0 0 []
      (le_refl 0) (by simp) (Or.inl rfl)

/-! ## Claim C3: chunk size bounds -/

theorem boundary_candidate_min {minc maxc modl size : Nat} {h : Int}
    (hmm : minc ≤ maxc)
    (hc : boundary_candidate minc maxc modl size h = true) : minc ≤ size := by
  simp only [boundary_candidate, Bool.or_eq_true, Bool.and_eq_true,
    decide_eq_true_eq] at hc
  rcases hc with ⟨h1, _⟩ | h2
  · exact h1
  · omega

theorem boundary_candidate_of_max {minc maxc modl size : Nat} {h : Int}
    (hs : maxc ≤ size) : boundary_candidate minc maxc modl size h = true := by
  simp [boundary_candidate, hs]

theorem chunk_safe_false {data : List Nat} {pos : Nat}
    (hs : chunk_safe data pos = false) :
    pos + 1 < data.length ∧ is_continuation_byte (data.getD (pos + 1) 0) = true := by
  simpa [chunk_safe] using hs

theorem pySlice_getD (data : List Nat) (a b o : Nat)
    (ho : o < (pySlice data a b).length) :
    (pySlice data a b).getD o 0 = data.getD (a + o) 0 := by
  rw [pySlice_length] at ho
  rw [pySlice, List.getD_eq_getElem?_getD, List.getD_eq_getElem?_getD,
    List.getElem?_take, if_pos (by omega), List.getElem?_drop]

/-- On emission the chunk length is exactly the `current_chunk_size` of the loop. -/
theorem pySlice_emit_length (data : List Nat) (start pos : Nat)
    (hsp : start ≤ pos) (hp : pos < data.length) :
    (pySlice data start (pos + 1)).length = pos - start + 1 := by
  rw [pySlice_length]
  omega

theorem splitLoop_min_bound (data : List Nat) (minc maxc modl : Nat)
    (hmm : minc ≤ maxc) :
    ∀ (fuel pos start : Nat) (h : Int) (acc : List (List Nat)),
    start ≤ pos →
    (∀ c ∈ acc, minc ≤ c.length) →
    ∀ c ∈ (splitLoop data minc maxc modl fuel pos start h acc).dropLast,
      minc ≤ c.length := by
  have hfin : ∀ (start : Nat) (acc : List (List Nat)), (∀ c ∈ acc, minc ≤ c.length) →
      ∀ c ∈ (finalizeChunks data start acc).dropLast, minc ≤ c.length := by
    intro start acc hacc c hc
    unfold finalizeChunks at hc
    split at hc
    · rw [List.dropLast_concat] at hc
      exact hacc c hc
    · have hsub : acc.dropLast ⊆ acc := by
        rw [List.dropLast_eq_take]
        exact List.take_subset _ _
      exact hacc c (hsub hc)
  intro fuel
  induction fuel with
  | zero =>
    intro pos start h acc _ hacc
    exact hfin start acc hacc
  | succ f ih =>
    intro pos start h acc hsp hacc
    simp only [splitLoop]
    split
    · rename_i hp
      split
      · rename_i hcand
        split
        · refine ih (pos + 1) (pos + 1) _ _ (le_refl _) ?_
          intro c hc
          rcases List.mem_append.mp hc with h1 | h1
          · exact hacc c h1
          · rw [List.mem_singleton.mp h1, pySlice_emit_length data start pos hsp hp]
            exact boundary_candidate_min hmm hcand
        · exact ih (pos + 1) start _ _ (by omega) hacc
      · exact ih (pos + 1) start _ _ (by omega) hacc
    · exact hfin start acc hacc

theorem finalizeChunks_overrun (data : List Nat) (maxc start : Nat)
    (acc : List (List Nat)) (hmx : 1 ≤ maxc)
    (hacc : ∀ c ∈ acc, ∀ o, maxc ≤ o → o < c.length →
      is_continuation_byte (c.getD o 0) = true)
    (hopen : ∀ p, start ≤ p → p + 1 < data.length → maxc ≤ p - start + 1 →
      is_continuation_byte (data.getD (p + 1) 0) = true) :
    ∀ c ∈ finalizeChunks data start acc, ∀ o, maxc ≤ o → o < c.length →
      is_continuation_byte (c.getD o 0) = true := by
  intro c hc o ho1 ho2
  unfold finalizeChunks at hc
  split at hc
  · rename_i hlt
    rcases List.mem_append.mp hc with h1 | h1
    · exact hacc c h1 o ho1 ho2
    · rw [List.mem_singleton.mp h1] at ho2 ⊢
      rw [pySlice_getD data start data.length o ho2]
      rw [pySlice_length] at ho2
      have hp1 : start + o = (start + o - 1) + 1 := by omega
      rw [hp1]
      exact hopen (start + o - 1) (by omega) (by omega) (by omega)
  · exact hacc c hc o ho1 ho2

theorem splitLoop_overrun (data : List Nat) (minc maxc modl : Nat)
    (hmx : 1 ≤ maxc) :
    ∀ (fuel pos start : Nat) (h : Int) (acc : List (List Nat)),
    start ≤ pos → data.length ≤ pos + fuel →
    (∀ c ∈ acc, ∀ o, maxc ≤ o → o < c.length →
      is_continuation_byte (c.getD o 0) = true) →
    (∀ p, start ≤ p → p < pos → maxc ≤ p - start + 1 →
      is_continuation_byte (data.getD (p + 1) 0) = true) →
    ∀ c ∈ splitLoop data minc maxc modl fuel pos start h acc, ∀ o, maxc ≤ o →
      o < c.length → is_continuation_byte (c.getD o 0) = true := by
  intro fuel
  induction fuel with
  | zero =>
    intro pos start h acc hsp hfl hacc hopen
    simp only [splitLoop]
    exact finalizeChunks_overrun data maxc start acc hmx hacc
      (fun p h1 h2 h3 => hopen p h1 (by omega) h3)
  | succ f ih =>
    intro pos start h acc hsp hfl hacc hopen
    simp only [splitLoop]
    split
    · rename_i hp
      split
      · rename_i hcand
        cases hsafe : chunk_safe data pos with
        | true =>
          rw [if_pos rfl]
          refine ih (pos + 1) (pos + 1) _ _ (le_refl _) (by omega) ?_ (by omega)
          intro c hc o ho1 ho2
          rcases List.mem_append.mp hc with h1 | h1
          · exact hacc c h1 o ho1 ho2
          · rw [List.mem_singleton.mp h1] at ho2 ⊢
            rw [pySlice_getD data start (pos + 1) o ho2]
            rw [pySlice_emit_length data start pos hsp hp] at ho2
            have hp1 : start + o = (start + o - 1) + 1 := by omega
            rw [hp1]
            exact hopen (start + o - 1) (by omega) (by omega) (by omega)
        | false =>
          rw [if_neg (by simp [hsafe])]
          refine ih (pos + 1) start _ _ (by omega) (by omega) hacc ?_
          intro p h1 h2 h3
          by_cases hpp : p < pos
          · exact hopen p h1 hpp h3
          · have hpe : p = pos := by omega
            subst hpe
            exact (chunk_safe_false hsafe).2
      · rename_i hcand
        refine ih (pos + 1) start _ _ (by omega) (by omega) hacc ?_
        intro p h1 h2 h3
        by_cases hpp : p < pos
        · exact hopen p h1 hpp h3
        · have hcmax : boundary_candidate minc maxc modl (pos - start + 1)
              (stepHash data start pos h) = true :=
            boundary_candidate_of_max (by omega)
          exact absurd hcmax (by simpa using hcand)
    · rename_i hp
      exact finalizeChunks_overrun data maxc start acc hmx hacc
        (fun p h1 h2 h3 => hopen p h1 (by omega) h3)

theorem chunkMax_pos (content : List Nat) : 1 ≤ chunkMax content := by
  have h1 : 128 ≤ chunkAvg content := le_max_left _ _
  simp only [chunkMax]
  omega

theorem chunkMin_le_chunkMax (content : List Nat) :
    chunkMin content ≤ chunkMax content := min_le_right _ _

/-- Claim C3, amended.  The lower bounds of the claim hold: every chunk but
the last has at least `min_chunk` bytes and every chunk is nonempty.  The
upper bound `max_chunk` does NOT hold as stated (see the counterexample);
what the code guarantees instead is that a chunk exceeds `max_chunk` only by
trailing UTF-8 continuation bytes: every byte at an offset `≥ max_chunk`
inside a chunk is a continuation byte (hence, on valid UTF-8 input, a chunk
exceeds `max_chunk` by at most 3 bytes). -/
theorem c3_chunk_size_bounds (content : List Nat) :
    (∀ c ∈ (split_into_chunks content).dropLast, chunkMin content ≤ c.length) ∧
    (∀ c ∈ split_into_chunks content, c ≠ []) ∧
    (∀ c ∈ split_into_chunks content, ∀ o, chunkMax content ≤ o → o < c.length →
      is_continuation_byte (c.getD o 0) = true) := by
  by_cases hc : content.length = 0
  · rw [List.length_eq_zero.mp hc]
    refine ⟨?_, ?_, ?_⟩ <;> intro c hc2 <;> simp [split_into_chunks,
      split_into_chunks_with] at hc2
  · rw [split_into_chunks_eq content hc]
    refine ⟨?_, ?_, ?_⟩
    · exact splitLoop_min_bound content _ _ _ (chunkMin_le_chunkMax content)
        content.length 0 0 0 [] (le_refl 0) (by simp)
    · exact splitLoop_ne_nil content _ _ _ content.length 0 0 0 []
        (le_refl 0) (by simp)
    · exact splitLoop_overrun content _ _ _ (chunkMax_pos content)
        content.length 0 0 0 [] (le_refl 0) (by omega) (by simp) (by omega)

/-- Witness for C3 at a concrete input: the two-byte input is one nonempty
chunk. -/
theorem c3_chunk_size_bounds_witness :
    ([104, 105] : List Nat) ≠ [] :=
  (c3_chunk_size_bounds [104, 105]).2.1 [104, 105] (by decide)

set_option maxRecDepth 100000 in
set_option maxHeartbeats 12000000 in
/-- Counterexample to claim C3 as stated: for 639 NUL bytes followed by the
two UTF-8 bytes of U+00E9, the single (hence last) chunk has 641 bytes while
`max_chunk = 640`, outside the claimed range `[1, max_chunk]`. -/
theorem c3_counterexample :
    (split_into_chunks exC3).map List.length = [641] ∧ chunkMax exC3 = 640 := by
  constructor
  · decide
  · decide

/-! ## Claims C4 and C5: behaviour of the chunker on prefixes of its input -/

theorem getD_take (data : List Nat) (c i : Nat) (hic : i < c) :
    (data.take c).getD i 0 = data.getD i 0 := by
  rw [List.getD_eq_getElem?_getD, List.getD_eq_getElem?_getD, List.getElem?_take,
    if_pos hic]

theorem stepHash_take (data : List Nat) (c start pos : Nat) (h : Int)
    (hpc : pos < c) :
    stepHash (data.take c) start pos h = stepHash data start pos h := by
  unfold stepHash
  rw [getD_take data c pos hpc, getD_take data c (pos - WINDOW) (by omega)]

theorem pySlice_take (data : List Nat) (c a b : Nat) (hbc : b ≤ c) :
    pySlice (data.take c) a b = pySlice data a b := by
  rw [pySlice, pySlice, List.drop_take, List.take_take]
  congr 1
  omega

theorem chunk_safe_take (data : List Nat) (c pos : Nat) (hpc : pos + 1 < c)
    (hcl : c ≤ data.length) :
    chunk_safe (data.take c) pos = chunk_safe data pos := by
  unfold chunk_safe
  rw [getD_take data c (pos + 1) hpc]
  have h1 : decide (pos + 1 < (data.take c).length) = true := by
    rw [List.length_take]
    simp only [decide_eq_true_eq]
    omega
  have h2 : decide (pos + 1 < data.length) = true := by
    simp only [decide_eq_true_eq]
    omega
  rw [h1, h2]

theorem chunk_safe_take_end (data : List Nat) (c pos : Nat) (hpc : pos + 1 = c)
    (hcl : c ≤ data.length) :
    chunk_safe (data.take c) pos = true := by
  unfold chunk_safe
  have h1 : decide (pos + 1 < (data.take c).length) = false := by
    rw [List.length_take]
    simp only [decide_eq_false_iff_not]
    omega
  rw [h1]
  rfl

/-- From any in-loop state the first produced chunk extends at least to the
current position. -/
theorem splitLoop_head_length (data : List Nat) (minc maxc modl : Nat) :
    ∀ (fuel pos start : Nat) (h : Int),
    start ≤ pos → pos < data.length →
    ∃ hd tl, splitLoop data minc maxc modl fuel pos start h [] = hd :: tl ∧
      pos + 1 - start ≤ hd.length := by
  intro fuel
  induction fuel with
  | zero =>
    intro pos start h hsp hp
    simp only [splitLoop, finalizeChunks, if_pos (show start < data.length by omega),
      List.nil_append]
    refine ⟨pySlice data start data.length, [], rfl, ?_⟩
    rw [pySlice_length]
    omega
  | succ f ih =>
    intro pos start h hsp hp
    simp only [splitLoop, if_pos hp]
    split
    · split
      · rw [List.nil_append, splitLoop_append data minc maxc modl f (pos + 1) (pos + 1) _
          [pySlice data start (pos + 1)]]
        refine ⟨pySlice data start (pos + 1), _, rfl, ?_⟩
        rw [pySlice_emit_length data start pos hsp hp]
        omega
      · by_cases hp2 : pos + 1 < data.length
        · obtain ⟨hd, tl, heq, hlen⟩ := ih (pos + 1) start _ (by omega) hp2
          exact ⟨hd, tl, heq, by omega⟩
        · rw [splitLoop_finalize_of_le data minc maxc modl f (pos + 1) start _ [] (by omega)]
          simp only [finalizeChunks, if_pos (show start < data.length by omega),
            List.nil_append]
          refine ⟨pySlice data start data.length, [], rfl, ?_⟩
          rw [pySlice_length]
          omega
    · by_cases hp2 : pos + 1 < data.length
      · obtain ⟨hd, tl, heq, hlen⟩ := ih (pos + 1) start _ (by omega) hp2
        exact ⟨hd, tl, heq, by omega⟩
      · rw [splitLoop_finalize_of_le data minc maxc modl f (pos + 1) start _ [] (by omega)]
        simp only [finalizeChunks, if_pos (show start < data.length by omega),
          List.nil_append]
        refine ⟨pySlice data start data.length, [], rfl, ?_⟩
        rw [pySlice_length]
        omega

/-- Key mirroring lemma.  Suppose the run of the chunker loop on `data` from
state `(pos, start, h)` produces the chunk list `out`, and the first `j ≥ 1`
of those chunks end exactly at a cut position `c` with `pos < c ≤ |data|`.
Then the run on `data.take c` from the same state produces exactly
`out.take j`: both runs read the same bytes below `c`, and at `c - 1` the
truncated run always accepts the boundary that the full run accepted. -/
theorem splitLoop_take_mirror (data : List Nat) (minc maxc modl : Nat)
    (c : Nat) (hcl : c ≤ data.length) :
    ∀ (fuel2 fuel1 pos start : Nat) (h : Int) (out : List (List Nat)) (j : Nat),
    start ≤ pos → pos < c →
    c ≤ pos + fuel2 → data.length ≤ pos + fuel1 →
    splitLoop data minc maxc modl fuel1 pos start h [] = out →
    ((out.take j).map List.length).sum = c - start →
    1 ≤ j →
    splitLoop (data.take c) minc maxc modl fuel2 pos start h [] = out.take j := by
  intro fuel2
  induction fuel2 with
  | zero =>
    intro fuel1 pos start h out j hsp hpc hf2 hf1 hout hsum hj
    exact absurd hpc (by omega)
  | succ f2 ih =>
    intro fuel1 pos start h out j hsp hpc hf2 hf1 hout hsum hj
    have hlen2 : (data.take c).length = c := by rw [List.length_take]; omega
    cases fuel1 with
    | zero => exact absurd hf1 (by omega)
    | succ f1 =>
      have hpd : pos < data.length := by omega
      have hp2 : pos < (data.take c).length := by omega
      simp only [splitLoop, if_pos hp2]
      simp only [splitLoop, if_pos hpd] at hout
      rw [stepHash_take data c start pos h hpc]
      by_cases hcand : boundary_candidate minc maxc modl (pos - start + 1)
        (stepHash data start pos h) = true
      · rw [if_pos hcand]
        rw [if_pos hcand] at hout
        by_cases hpe : pos + 1 = c
        · -- the cut sits right after this position; the truncated run
          -- accepts the boundary and stops
          rw [if_pos (chunk_safe_take_end data c pos hpe hcl), List.nil_append,
            splitLoop_finalize_of_le (data.take c) minc maxc modl f2 (pos + 1) (pos + 1) _ _
              (by omega)]
          have hfin : finalizeChunks (data.take c) (pos + 1)
              [pySlice (data.take c) start (pos + 1)] = [pySlice data start (pos + 1)] := by
            unfold finalizeChunks
            rw [if_neg (by omega), pySlice_take data c start (pos + 1) (by omega)]
          rw [hfin]
          by_cases hsafe : chunk_safe data pos = true
          · rw [if_pos hsafe, List.nil_append,
              splitLoop_append data minc maxc modl f1 (pos + 1) (pos + 1) _
                [pySlice data start (pos + 1)]] at hout
            obtain ⟨j2, rfl⟩ : ∃ j2, j = j2 + 1 := ⟨j - 1, by omega⟩
            rw [← hout] at hsum ⊢
            simp only [List.singleton_append, List.take_succ_cons, List.map_cons,
              List.sum_cons] at hsum ⊢
            have hslen : (pySlice data start (pos + 1)).length = pos - start + 1 :=
              pySlice_emit_length data start pos hsp hpd
            cases htk : (splitLoop data minc maxc modl f1 (pos + 1) (pos + 1)
                (stepHash data start pos h) []).take j2 with
            | nil => rfl
            | cons a as =>
              have hane : a ≠ [] := by
                refine splitLoop_ne_nil data minc maxc modl f1 (pos + 1) (pos + 1)
                  (stepHash data start pos h) [] (le_refl _) (by simp) a ?_
                refine List.take_subset j2 _ ?_
                rw [htk]
                exact List.mem_cons_self a as
              have h0 : 0 < a.length := List.length_pos.mpr hane
              rw [htk] at hsum
              simp only [List.map_cons, List.sum_cons] at hsum
              exact absurd hsum (by omega)
          · -- the full run rejected the boundary at c - 1: then its next
            -- chunk reaches past c, contradicting the cut hypothesis
            rw [if_neg hsafe] at hout
            have hc2 : pos + 1 < data.length :=
              (chunk_safe_false (by simpa using hsafe)).1
            obtain ⟨hd, tl, heq, hlen⟩ :=
              splitLoop_head_length data minc maxc modl f1 (pos + 1) start
                (stepHash data start pos h) (by omega) hc2
            rw [heq] at hout
            obtain ⟨j2, rfl⟩ : ∃ j2, j = j2 + 1 := ⟨j - 1, by omega⟩
            rw [← hout] at hsum
            simp only [List.take_succ_cons, List.map_cons, List.sum_cons] at hsum
            exact absurd hsum (by omega)
        · -- pos + 1 < c : lockstep with identical safety verdicts
          rw [chunk_safe_take data c pos (by omega) hcl]
          by_cases hsafe : chunk_safe data pos = true
          · rw [if_pos hsafe]
            rw [if_pos hsafe, List.nil_append,
              splitLoop_append data minc maxc modl f1 (pos + 1) (pos + 1) _
                [pySlice data start (pos + 1)]] at hout
            obtain ⟨j2, rfl⟩ : ∃ j2, j = j2 + 1 := ⟨j - 1, by omega⟩
            rw [← hout] at hsum
            simp only [List.singleton_append, List.take_succ_cons, List.map_cons,
              List.sum_cons] at hsum
            have hslen : (pySlice data start (pos + 1)).length = pos - start + 1 :=
              pySlice_emit_length data start pos hsp hpd
            have hj2 : 1 ≤ j2 := by
              rcases Nat.eq_zero_or_pos j2 with h0 | h1
              · subst h0
                simp only [List.take_zero, List.map_nil, List.sum_nil] at hsum
                exact absurd hsum (by omega)
              · exact h1
            have hrec := ih f1 (pos + 1) (pos + 1) (stepHash data start pos h)
              (splitLoop data minc maxc modl f1 (pos + 1) (pos + 1)
                (stepHash data start pos h) []) j2
              (le_refl _) (by omega) (by omega) (by omega) rfl (by omega) hj2
            rw [List.nil_append, splitLoop_append (data.take c) minc maxc modl f2 (pos + 1)
              (pos + 1) _ [pySlice (data.take c) start (pos + 1)], hrec,
              pySlice_take data c start (pos + 1) (by omega), ← hout]
            simp [List.take_succ_cons]
          · rw [if_neg hsafe]
            rw [if_neg hsafe] at hout
            exact ih f1 (pos + 1) start _ out j (by omega) (by omega) (by omega)
              (by omega) hout hsum hj
      · rw [if_neg hcand]
        rw [if_neg hcand] at hout
        by_cases hpe : pos + 1 = c
        · -- the truncated run halts at the cut without accepting a boundary;
          -- the cut can only be a chunk end of the full run if the full run
          -- also halts exactly there
          rw [splitLoop_finalize_of_le (data.take c) minc maxc modl f2 (pos + 1) start _ []
            (by omega)]
          have hfin : finalizeChunks (data.take c) start [] = [pySlice data start c] := by
            unfold finalizeChunks
            rw [hlen2, if_pos (by omega), List.nil_append,
              pySlice_take data c start c (le_refl c)]
          rw [hfin]
          by_cases hce : c = data.length
          · rw [splitLoop_finalize_of_le data minc maxc modl f1 (pos + 1) start _ []
              (by omega)] at hout
            have hout2 : out = [pySlice data start c] := by
              rw [← hout]
              unfold finalizeChunks
              rw [if_pos (by omega), List.nil_append, ← hce]
            rw [hout2, List.take_of_length_le (by simp [hj])]
          · have hc2 : pos + 1 < data.length := by omega
            obtain ⟨hd, tl, heq, hlen⟩ :=
              splitLoop_head_length data minc maxc modl f1 (pos + 1) start
                (stepHash data start pos h) (by omega) hc2
            rw [heq] at hout
            obtain ⟨j2, rfl⟩ : ∃ j2, j = j2 + 1 := ⟨j - 1, by omega⟩
            rw [← hout] at hsum
            simp only [List.take_succ_cons, List.map_cons, List.sum_cons] at hsum
            exact absurd hsum (by omega)
        · exact ih f1 (pos + 1) start _ out j (by omega) (by omega) (by omega)
            (by omega) hout hsum hj

/-- Below 2561 bytes (and above 0) the derived parameters are the constants
`min_chunk = 32`, `max_chunk = 640`, `modulus = avg = 128`. -/
theorem small_params (content : List Nat) (h0 : content.length ≠ 0)
    (hlen : content.length ≤ 2560) :
    split_into_chunks content
      = splitLoop content 32 640 128 content.length 0 0 0 [] := by
  rw [split_into_chunks_eq content h0]
  have h1 : chunkAvg content = 128 := by
    have hd : content.length / 20 ≤ 128 := by omega
    simp [chunkAvg, Nat.max_eq_left hd]
  have h2 : chunkMax content = 640 := by rw [chunkMax, h1]; decide
  have h3 : chunkMin content = 32 := by rw [chunkMin, h1, h2]; decide
  rw [h1, h2, h3]

/-- Stability of chunking under truncation at a chunk boundary: for inputs
small enough that the derived size parameters do not change (≤ 2560 bytes),
re-chunking the concatenation of the first `k` chunks reproduces exactly
those `k` chunks. -/
theorem chunks_take_stable (content : List Nat) (k : Nat)
    (hlen : content.length ≤ 2560) (hk : 0 < k)
    (hk2 : k < (split_into_chunks content).length) :
    split_into_chunks (((split_into_chunks content).take k).flatten)
      = (split_into_chunks content).take k := by
  have h0 : content.length ≠ 0 := by
    intro h0
    rw [List.length_eq_zero.mp h0] at hk2
    have hemp : split_into_chunks ([] : List Nat) = [] := rfl
    rw [hemp] at hk2
    simp at hk2
  have hflat := split_into_chunks_flatten content
  have hdecomp : ((split_into_chunks content).take k).flatten
      ++ ((split_into_chunks content).drop k).flatten = content := by
    rw [← List.flatten_append, List.take_append_drop, hflat]
  have hc : (((split_into_chunks content).take k).map List.length).sum
      = ((split_into_chunks content).take k).flatten.length := by
    rw [List.length_flatten]
  set c := (((split_into_chunks content).take k).map List.length).sum with hcdef
  have htake : content.take c = ((split_into_chunks content).take k).flatten := by
    have htl := List.take_left (((split_into_chunks content).take k).flatten)
      (((split_into_chunks content).drop k).flatten)
    rw [hdecomp] at htl
    rw [hc]
    exact htl
  have hcle : c ≤ content.length := by
    have := congrArg List.length hdecomp
    simp only [List.length_append] at this
    omega
  have hne : ∀ ch ∈ split_into_chunks content, ch ≠ [] := by
    rw [split_into_chunks_eq content h0]
    exact splitLoop_ne_nil content _ _ _ content.length 0 0 0 [] (le_refl 0) (by simp)
  have hcpos : 0 < c := by
    obtain ⟨c0, rest, hch⟩ : ∃ c0 rest, split_into_chunks content = c0 :: rest := by
      cases hsp : split_into_chunks content with
      | nil => rw [hsp] at hk2; simp at hk2
      | cons a b => exact ⟨a, b, rfl⟩
    obtain ⟨k2, rfl⟩ : ∃ k2, k = k2 + 1 := ⟨k - 1, by omega⟩
    have hc0 : c0 ≠ [] := hne c0 (by rw [hch]; exact List.mem_cons_self c0 rest)
    have : 0 < c0.length := List.length_pos.mpr hc0
    rw [hcdef, hch, List.take_succ_cons]
    simp only [List.map_cons, List.sum_cons]
    omega
  have hclen : (content.take c).length = c := by rw [List.length_take]; omega
  have hsmall2 : split_into_chunks (content.take c)
      = splitLoop (content.take c) 32 640 128 c 0 0 0 [] := by
    rw [small_params (content.take c) (by omega) (by omega), hclen]
  have hout : splitLoop content 32 640 128 content.length 0 0 0 []
      = split_into_chunks content := (small_params content h0 hlen).symm
  have hmirror := splitLoop_take_mirror content 32 640 128 c hcle c content.length
    0 0 0 (split_into_chunks content) k (le_refl 0) hcpos (by omega) (by omega)
    hout (by omega) hk
  rw [htake.symm, hsmall2]
  exact hmirror

/-- Claim C4, amended.  Cutting the input at a chunk boundary and re-running
the chunker on the FIRST half reproduces exactly the chunks before the
boundary (shown here for inputs of at most 2560 bytes, where the derived
size parameters of the prefix coincide with those of the whole input).  The
second half does NOT re-chunk to the remaining chunks in general — the
rolling hash is not reset at a chunk boundary, so the suffix run starts from
hash state 0 while the original run carries the hash of earlier bytes — see
the counterexample. -/
theorem c4_prefix_stability (content : List Nat) (k : Nat)
    (hlen : content.length ≤ 2560) (hk : 0 < k)
    (hk2 : k < (split_into_chunks content).length) :
    split_into_chunks (((split_into_chunks content).take k).flatten)
      = (split_into_chunks content).take k :=
  chunks_take_stable content k hlen hk hk2

set_option maxRecDepth 100000 in
set_option maxHeartbeats 12000000 in
/-- Counterexample to claim C4 as stated: on the 162-byte input `exC45` the
chunker emits chunks of lengths 45, 53, 64; cutting at the first boundary
(offset 45) and chunking the two halves separately does not reproduce the
original chunk sequence. -/
theorem c4_counterexample :
    (split_into_chunks exC45).map List.length = [45, 53, 64] ∧
    split_into_chunks exC45
      ≠ split_into_chunks (exC45.take 45) ++ split_into_chunks (exC45.drop 45) := by
  constructor
  · decide
  · decide

set_option maxRecDepth 100000 in
set_option maxHeartbeats 12000000 in
/-- Witness for the amended C4 at a concrete input: re-chunking the first
chunk of `exC45` (cut at the first boundary) reproduces it. -/
theorem c4_prefix_stability_witness :
    split_into_chunks (((split_into_chunks exC45).take 1).flatten)
      = (split_into_chunks exC45).take 1 :=
  c4_prefix_stability exC45 1 (by decide) (by decide) (by decide)

/-- Claim C5, amended.  The FIRST chunk of any chunking, re-chunked alone,
yields exactly the one-element list containing itself (inputs of at most
2560 bytes, so that the derived size parameters agree); consequently its
chunk-document `data`, re-chunked, yields the singleton id list.  Later
chunks do NOT have this property in general, because the rolling hash is
not reset at chunk boundaries — see the counterexample. -/
theorem c5_first_chunk_fixpoint (content : List Nat)
    (hlen : content.length ≤ 2560) (hnil : content ≠ []) :
    split_into_chunks ((split_into_chunks content).headD [])
      = [(split_into_chunks content).headD []] := by
  obtain ⟨c0, rest, hch⟩ : ∃ c0 rest, split_into_chunks content = c0 :: rest := by
    cases hsp : split_into_chunks content with
    | nil =>
      have := split_into_chunks_flatten content
      rw [hsp] at this
      exact absurd this.symm hnil
    | cons a b => exact ⟨a, b, rfl⟩
  rw [hch]
  simp only [List.headD_cons]
  cases rest with
  | nil =>
    have hflat := split_into_chunks_flatten content
    rw [hch] at hflat
    simp only [List.flatten_cons, List.flatten_nil, List.append_nil] at hflat
    rw [hflat, hch, hflat]
  | cons c1 rest2 =>
    have hk2 : 1 < (split_into_chunks content).length := by rw [hch]; simp
    have h := chunks_take_stable content 1 hlen one_pos hk2
    rw [hch] at h
    simpa using h

set_option maxRecDepth 100000 in
set_option maxHeartbeats 12000000 in
/-- Counterexample to claim C5 as stated: the third chunk of the chunking of
`exC45` is one of its chunks, yet re-chunking it alone yields two chunks,
not the singleton list. -/
theorem c5_counterexample :
    (split_into_chunks exC45).getD 2 [] ∈ split_into_chunks exC45 ∧
    split_into_chunks ((split_into_chunks exC45).getD 2 [])
      ≠ [(split_into_chunks exC45).getD 2 []] := by
  constructor
  · decide
  · decide

set_option maxRecDepth 100000 in
set_option maxHeartbeats 12000000 in
/-- Witness for the amended C5 at a concrete input. -/
theorem c5_first_chunk_fixpoint_witness :
    split_into_chunks ((split_into_chunks exC45).headD [])
      = [(split_into_chunks exC45).headD []] :=
  c5_first_chunk_fixpoint exC45 (by decide) (by decide)

/-! ## Claim C1: the chunk id -/

theorem base36Inv_digit : ∀ d < 36, base36Inv (base36Digit d) = d := by decide

theorem base36Digit_ne : ∀ d < 36, d ≠ 0 → base36Digit d ≠ 48 := by decide

theorem int_to_base36_go_length :
    ∀ (f n : Nat) (acc : List Nat),
    (int_to_base36_go f n acc).length = (int_to_base36_go f n []).length + acc.length := by
  intro f
  induction f with
  | zero => intro n acc; simp [int_to_base36_go]
  | succ f ih =>
    intro n acc
    by_cases h0 : n = 0
    · simp [int_to_base36_go, h0]
    · simp only [int_to_base36_go, if_neg h0]
      rw [ih (n / 36) (base36Digit (n % 36) :: acc), ih (n / 36) [base36Digit (n % 36)]]
      simp only [List.length_cons, List.length_singleton, List.length_nil]
      omega

theorem int_to_base36_go_val :
    ∀ (f n a : Nat) (acc : List Nat), n < 36 ^ f →
    List.foldl (fun x d => x * 36 + base36Inv d) a (int_to_base36_go f n acc)
      = List.foldl (fun x d => x * 36 + base36Inv d)
          (a * 36 ^ (int_to_base36_go f n []).length + n) acc := by
  intro f
  induction f with
  | zero =>
    intro n a acc hn
    have h0 : n = 0 := by omega
    subst h0
    simp [int_to_base36_go]
  | succ f ih =>
    intro n a acc hn
    by_cases h0 : n = 0
    · subst h0
      simp [int_to_base36_go]
    · simp only [int_to_base36_go, if_neg h0]
      have hdiv : n / 36 < 36 ^ f := by
        have h1 : 36 ^ (f + 1) = 36 ^ f * 36 := by ring
        rw [h1] at hn
        exact Nat.div_lt_of_lt_mul (by omega)
      rw [ih (n / 36) a (base36Digit (n % 36) :: acc) hdiv]
      simp only [List.foldl_cons]
      have hinv : base36Inv (base36Digit (n % 36)) = n % 36 :=
        base36Inv_digit (n % 36) (Nat.mod_lt n (by omega))
      rw [hinv]
      have hlen : (int_to_base36_go f (n / 36) [base36Digit (n % 36)]).length
          = (int_to_base36_go f (n / 36) []).length + 1 := by
        rw [int_to_base36_go_length f (n / 36) [base36Digit (n % 36)]]
        simp
      rw [hlen]
      congr 1
      have h36 : 36 * (n / 36) + n % 36 = n := Nat.div_add_mod n 36
      calc (a * 36 ^ (int_to_base36_go f (n / 36) []).length + n / 36) * 36 + n % 36
          = a * 36 ^ (int_to_base36_go f (n / 36) []).length * 36
            + (36 * (n / 36) + n % 36) := by ring
        _ = a * 36 ^ ((int_to_base36_go f (n / 36) []).length + 1) + n := by
            rw [h36, pow_succ]
            ring

theorem two_pow_64_le_36_pow_64 : 18446744073709551616 ≤ 36 ^ 64 := by
  have h1 : (2 : Nat) ^ 64 ≤ 36 ^ 64 := Nat.pow_le_pow_left (by omega) 64
  have h2 : (2 : Nat) ^ 64 = 18446744073709551616 := by norm_num
  omega

/-- The base36 writer of the source really writes `n` (reduced to 64 bits)
in base 36. -/
theorem base36Val_int_to_base36 (n : Nat) (hn : n < 18446744073709551616) :
    base36Val (int_to_base36 n) = n := by
  by_cases h0 : n = 0
  · subst h0
    decide
  · unfold int_to_base36 base36Val
    rw [if_neg h0, Nat.mod_eq_of_lt hn]
    have hlt : n < 36 ^ 64 := by
      have := two_pow_64_le_36_pow_64
      omega
    rw [int_to_base36_go_val 64 n 0 [] hlt]
    simp

theorem int_to_base36_go_head :
    ∀ (f n : Nat) (acc : List Nat), n < 36 ^ f → n ≠ 0 →
    ∃ d rest, int_to_base36_go f n acc = d :: rest ∧ d ≠ 48 := by
  intro f
  induction f with
  | zero =>
    intro n acc hn h0
    omega
  | succ f ih =>
    intro n acc hn h0
    simp only [int_to_base36_go, if_neg h0]
    by_cases hq : n / 36 = 0
    · have hn36 : n < 36 := by omega
      have hmod : n % 36 = n := Nat.mod_eq_of_lt hn36
      have hgo : ∀ f2, int_to_base36_go f2 (n / 36) (base36Digit (n % 36) :: acc)
          = base36Digit (n % 36) :: acc := by
        intro f2
        cases f2 with
        | zero => rfl
        | succ f3 => simp [int_to_base36_go, hq]
      rw [hgo]
      exact ⟨base36Digit (n % 36), acc, rfl,
        base36Digit_ne (n % 36) (by omega) (by omega)⟩
    · have hdiv : n / 36 < 36 ^ f := by
        have h1 : 36 ^ (f + 1) = 36 ^ f * 36 := by ring
        rw [h1] at hn
        exact Nat.div_lt_of_lt_mul (by omega)
      exact ih (n / 36) (base36Digit (n % 36) :: acc) hdiv hq

/-- Nonzero values never render with a leading `0` digit. -/
theorem int_to_base36_head_ne (n : Nat) (hn : n < 18446744073709551616)
    (h0 : n ≠ 0) : (int_to_base36 n).headD 0 ≠ 48 := by
  unfold int_to_base36
  rw [if_neg h0, Nat.mod_eq_of_lt hn]
  have hlt : n < 36 ^ 64 := by
    have := two_pow_64_le_36_pow_64
    omega
  obtain ⟨d, rest, heq, hd⟩ := int_to_base36_go_head 64 n [] hlt h0
  rw [heq]
  simpa using hd

theorem m64_lt (x : Nat) : m64 x < 18446744073709551616 :=
  Nat.mod_lt x (by omega)

theorem xor_shiftRight_lt {x : Nat} (k : Nat) (hx : x < 18446744073709551616) :
    (x ^^^ (x >>> k)) < 18446744073709551616 := by
  have h2 : (18446744073709551616 : Nat) = 2 ^ 64 := by norm_num
  rw [h2] at hx ⊢
  refine Nat.xor_lt_two_pow hx (lt_of_le_of_lt ?_ hx)
  rw [Nat.shiftRight_eq_div_pow]
  exact Nat.div_le_self x (2 ^ k)

theorem xxAvalanche_lt (h0 : Nat) : xxAvalanche h0 < 18446744073709551616 := by
  unfold xxAvalanche
  exact xor_shiftRight_lt 32 (m64_lt _)

/-- The digest is an unsigned 64-bit value. -/
theorem xxh64_lt (bs : List Nat) : xxh64 bs < 18446744073709551616 := by
  unfold xxh64
  exact xxAvalanche_lt _

theorem utf8Encode_append (a b : List Nat) :
    utf8Encode (a ++ b) = utf8Encode a ++ utf8Encode b := by
  simp [utf8Encode, List.map_append, List.flatten_append]

theorem utf8Encode_ascii (s : List Nat) (hs : ∀ cp ∈ s, cp < 128) :
    utf8Encode s = s := by
  induction s with
  | nil => rfl
  | cons a t ih =>
    have ha : a < 128 := hs a (List.mem_cons_self a t)
    have ht : ∀ cp ∈ t, cp < 128 := fun cp hcp => hs cp (List.mem_cons_of_mem a hcp)
    simp only [utf8Encode, List.map_cons, List.flatten_cons] at *
    rw [ih ht]
    unfold utf8EncodeChar
    rw [if_pos ha]
    rfl

theorem decimalReprGo_ascii :
    ∀ (f n : Nat) (acc : List Nat), (∀ d ∈ acc, d < 128) →
    ∀ d ∈ decimalReprGo f n acc, d < 128 := by
  intro f
  induction f with
  | zero => intro n acc hacc; exact hacc
  | succ f ih =>
    intro n acc hacc
    by_cases h0 : n = 0
    · simpa [decimalReprGo, h0] using hacc
    · simp only [decimalReprGo, if_neg h0]
      refine ih (n / 10) _ ?_
      intro d hd
      rcases List.mem_cons.mp hd with h1 | h1
      · subst h1
        have : n % 10 < 10 := Nat.mod_lt n (by omega)
        omega
      · exact hacc d h1

theorem decimalRepr_ascii (n : Nat) : ∀ d ∈ decimalRepr n, d < 128 := by
  unfold decimalRepr
  split
  · intro d hd
    rw [List.mem_singleton.mp hd]
    omega
  · exact decimalReprGo_ascii (n + 1) n [] (by simp)

/-- Claim C1, amended.  `generate_chunk_id` hashes the UTF-8 encoding of the
string `s`, a hyphen-minus, and the decimal rendering of `len(s)` — the
Python `len`, which counts CODE POINTS, not UTF-8 bytes as the claim words
it — and
writes the 64-bit digest in lowercase base36 after `"h:"`: the digit string
really denotes the digest in base 36, and a nonzero digest never starts with
a `0` digit.  The formula of the claim (UTF-8 byte length in the suffix) agrees
with the code exactly on ASCII inputs. -/
theorem c1_chunk_id_amended (s : List Nat) :
    generate_chunk_id s
      = [104, 58] ++ int_to_base36 (xxh64 (utf8Encode (s ++ [45] ++ decimalRepr s.length)))
    ∧ base36Val (int_to_base36 (xxh64 (utf8Encode (s ++ [45] ++ decimalRepr s.length))))
      = xxh64 (utf8Encode (s ++ [45] ++ decimalRepr s.length))
    ∧ ((∀ cp ∈ s, cp < 128) → generate_chunk_id s = claim_chunk_id s)
    ∧ (xxh64 (utf8Encode (s ++ [45] ++ decimalRepr s.length)) ≠ 0 →
        (int_to_base36 (xxh64 (utf8Encode (s ++ [45] ++ decimalRepr s.length)))).headD 0
          ≠ 48) := by
  refine ⟨rfl, base36Val_int_to_base36 _ (xxh64_lt _), ?_, ?_⟩
  · intro hascii
    unfold generate_chunk_id claim_chunk_id
    have hX : utf8Encode (s ++ [45] ++ decimalRepr s.length)
        = utf8Encode s ++ [45] ++ decimalRepr (utf8Encode s).length := by
      rw [utf8Encode_append, utf8Encode_append]
      rw [utf8Encode_ascii s hascii]
      rw [utf8Encode_ascii [45] (by simp), utf8Encode_ascii (decimalRepr s.length)
        (decimalRepr_ascii s.length)]
    rw [hX, utf8Encode_ascii s hascii]
  · exact fun hne => int_to_base36_head_ne _ (xxh64_lt _) hne

/-- Witness for the amended C1: on the ASCII input `hi` the id from the code
and the formula of the claim coincide. -/
theorem c1_chunk_id_amended_witness :
    generate_chunk_id [104, 105] = claim_chunk_id [104, 105] :=
  (c1_chunk_id_amended [104, 105]).2.2.1 (by decide)

/-- Counterexample to claim C1 as stated: for the one-code-point input
U+00E9 (2 UTF-8 bytes) the code hashes the suffix `-1` (code points) while
the claim prescribes `-2` (UTF-8 bytes); the resulting ids differ. -/
theorem c1_counterexample : generate_chunk_id [233] ≠ claim_chunk_id [233] := by
  decide

/-! ## Claim C2: pull behaviour on missing chunks -/

theorem pull_assemble_go (cache : List (List Nat × List Nat)) :
    ∀ (children : List (List Nat)) (parts : List Nat) (missing : Nat),
    children.foldl
      (fun st cid =>
        match chunkLookup cache cid with
        | some d => (st.1 ++ d, st.2)
        | none => (st.1, st.2 + 1)) (parts, missing)
      = (parts ++ (children.filterMap (chunkLookup cache)).flatten,
         missing + children.countP (fun cid => (chunkLookup cache cid).isNone)) := by
  intro children
  induction children with
  | nil => intro parts missing; simp
  | cons cid t ih =>
    intro parts missing
    simp only [List.foldl_cons, List.filterMap_cons, List.countP_cons]
    cases hl : chunkLookup cache cid with
    | some d =>
      simp only [hl]
      rw [ih (parts ++ d) missing]
      simp [List.append_assoc, hl]
    | none =>
      simp only [hl]
      rw [ih parts (missing + 1), Prod.mk.injEq]
      constructor
      · rfl
      · simp only [Option.isNone_none, if_true]
        omega

theorem pull_assemble_spec (children : List (List Nat))
    (cache : List (List Nat × List Nat)) :
    pull_assemble children cache
      = ((children.filterMap (chunkLookup cache)).flatten,
         children.countP (fun cid => (chunkLookup cache cid).isNone)) := by
  unfold pull_assemble
  rw [pull_assemble_go cache children [] 0]
  simp

/-- Claim C2, amended.  A file document whose `children` reference missing
chunks is NOT skipped: the engine always proceeds to the write (the decision
is never `skipped` once the document passed the Phase-1 filters), writing
the concatenation of just the chunks that were found, and the reported
missing count is the number of children absent from the cache.  The warning
corresponds to a positive missing count; the file is still (half-)written. -/
theorem c2_pull_missing_chunks (children : List (List Nat)) (data : List Nat)
    (cache : List (List Nat × List Nat)) :
    pull_process_doc false false children data cache ≠ PullDecision.skipped ∧
    (children ≠ [] → pull_process_doc false false children data cache
      = PullDecision.written ((children.filterMap (chunkLookup cache)).flatten)
          (children.countP (fun cid => (chunkLookup cache cid).isNone))) := by
  constructor
  · unfold pull_process_doc
    rw [if_neg (by simp), if_neg (by simp)]
    split <;> simp
  · intro hne
    unfold pull_process_doc
    rw [if_neg (by simp), if_neg (by simp), if_neg hne, pull_assemble_spec]

/-- Witness for the amended C2: a single found chunk is written back with a
zero missing count. -/
theorem c2_pull_missing_chunks_witness :
    pull_process_doc false false [[104]] [] [([104], [97])]
      = PullDecision.written [97] 0 := by
  have h := (c2_pull_missing_chunks [[104]] [] [([104], [97])]).2 (by decide)
  rw [h]
  decide

/-- Counterexample to claim C2 as stated: a document whose one referenced
chunk is absent from the (empty) chunk cache is still written — the decision
is `written` (with empty content and missing count 1), not a skip. -/
theorem c2_counterexample :
    pull_process_doc false false [[104]] [100] [] = PullDecision.written [] 1 ∧
    pull_process_doc false false [[104]] [100] [] ≠ PullDecision.skipped := by
  constructor
  · decide
  · decide

/-! ## Claim C8: the push change filter -/

/-- Claim C8: without `--force` a file is skipped iff a remote document
exists at its path whose normalized mtime (integers as-is; ISO-8601 strings
via `fromisoformat`; other strings via `int()`; failures and missing fields
as 0) is at least the local mtime; with `--force` nothing is skipped. -/
theorem c8_change_filter (parseIso parseInt : List Nat → Option Int)
    (force : Bool) (docs : List (List Nat × RemoteDoc)) (path : List Nat)
    (local_mtime : Int) :
    (push_should_skip parseIso parseInt force docs path local_mtime = true
      ↔ force = false ∧ ∃ d, lookupDoc docs path = some d ∧
          local_mtime ≤ remote_mtime_ms parseIso parseInt d.mtime) ∧
    push_should_skip parseIso parseInt true docs path local_mtime = false := by
  constructor
  · unfold push_should_skip
    cases force with
    | false =>
      rw [if_neg (by simp)]
      cases hl : lookupDoc docs path with
      | none => simp [hl]
      | some d => simp [hl]
    | true =>
      rw [if_pos rfl]
      simp
  · unfold push_should_skip
    rw [if_pos rfl]

/-! ## Claim C9: metadata PUT conflict retry -/

theorem push_stats_total :
    ∀ (outcomes : List FileOutcome) (s : PushStats),
    (outcomes.foldl push_stats_step s).created
      + (outcomes.foldl push_stats_step s).updated
      + (outcomes.foldl push_stats_step s).skipped
      + (outcomes.foldl push_stats_step s).errors
      = s.created + s.updated + s.skipped + s.errors + outcomes.length := by
  intro outcomes
  induction outcomes with
  | nil => intro s; simp
  | cons o t ih =>
    intro s
    simp only [List.foldl_cons, List.length_cons]
    rw [ih (push_stats_step s o)]
    cases o <;> (simp [push_stats_step]; try omega)

theorem push_stats_errors :
    ∀ (outcomes : List FileOutcome) (s : PushStats),
    (outcomes.foldl push_stats_step s).errors
      = s.errors + outcomes.count FileOutcome.error := by
  intro outcomes
  induction outcomes with
  | nil => intro s; simp
  | cons o t ih =>
    intro s
    simp only [List.foldl_cons]
    rw [ih (push_stats_step s o), List.count_cons]
    cases o <;> (simp [push_stats_step]; try omega)

/-- The push loop never aborts when every push_file call returns normally:
it is then exactly the stats fold over the per-file outcomes. -/
theorem push_documents_run_total :
    ∀ (outcomes : List FileOutcome) (s : PushStats),
    push_documents_run (outcomes.map some) s
      = some (outcomes.foldl push_stats_step s) := by
  intro outcomes
  induction outcomes with
  | nil => intro s; rfl
  | cons o t ih =>
    intro s
    rw [List.map_cons]
    exact ih (push_stats_step s o)

/-- Claim C9, amended.  On a 409 conflict of the metadata PUT, push_file
re-fetches the revision and retries at most once — exactly once when the
re-fetch returns a revision, the outcome then being that of the retry, so a
second conflict or an error RESPONSE is reported as a per-file error
without further retries, and such per-file errors are only counted, never
stopping the loop.  But a retry (or first PUT, or re-fetch) failing with an
HTTP error other than 404/409, or a network failure, makes couchdb_request
RAISE; the exception escapes push_file and the push_documents loop and
ABORTS the whole run — contrary to the claim, not every retry failure is a
per-file error. -/
theorem c9_conflict_retry_amended (first : PutResult) (refetch : FetchResult)
    (second : PutResult) (outcomes : List FileOutcome) :
    (∀ r n, push_file_meta first refetch second = MetaOutcome.done r n → n ≤ 1) ∧
    (first ≠ PutResult.conflict → first ≠ PutResult.raised →
      push_file_meta first refetch second = MetaOutcome.done first 0) ∧
    (∀ rev, refetch = FetchResult.found rev → second ≠ PutResult.raised →
      push_file_meta PutResult.conflict refetch second = MetaOutcome.done second 1) ∧
    (refetch = FetchResult.missing →
      push_file_meta PutResult.conflict refetch second
        = MetaOutcome.done PutResult.conflict 0) ∧
    (push_file_meta PutResult.raised refetch second = MetaOutcome.aborted) ∧
    (push_file_meta PutResult.conflict FetchResult.raised second
      = MetaOutcome.aborted) ∧
    (∀ rev, refetch = FetchResult.found rev →
      push_file_meta PutResult.conflict refetch PutResult.raised
        = MetaOutcome.aborted) ∧
    (push_documents_run (outcomes.map some) ⟨0, 0, 0, 0⟩
      = some (push_documents_stats outcomes)) ∧
    ((push_documents_stats outcomes).created + (push_documents_stats outcomes).updated
      + (push_documents_stats outcomes).skipped + (push_documents_stats outcomes).errors
      = outcomes.length) ∧
    (push_documents_stats outcomes).errors = outcomes.count FileOutcome.error := by
  refine ⟨?_, ?_, ?_, ?_, ?_, ?_, ?_, ?_, ?_, ?_⟩
  · intro r n h
    cases first with
    | raised => exact absurd h (by simp [push_file_meta])
    | ok =>
      simp only [push_file_meta, MetaOutcome.done.injEq] at h
      omega
    | err =>
      simp only [push_file_meta, MetaOutcome.done.injEq] at h
      omega
    | conflict =>
      cases refetch with
      | raised => exact absurd h (by simp [push_file_meta])
      | missing =>
        simp only [push_file_meta, MetaOutcome.done.injEq] at h
        omega
      | found rev =>
        cases second with
        | raised => exact absurd h (by simp [push_file_meta])
        | ok =>
          simp only [push_file_meta, MetaOutcome.done.injEq] at h
          omega
        | conflict =>
          simp only [push_file_meta, MetaOutcome.done.injEq] at h
          omega
        | err =>
          simp only [push_file_meta, MetaOutcome.done.injEq] at h
          omega
  · intro h1 h2
    cases first with
    | conflict => exact absurd rfl h1
    | raised => exact absurd rfl h2
    | ok => rfl
    | err => rfl
  · intro rev hr hs
    rw [hr]
    cases second with
    | raised => exact absurd rfl hs
    | ok => rfl
    | conflict => rfl
    | err => rfl
  · intro hm
    rw [hm]
    rfl
  · rfl
  · rfl
  · intro rev hr
    rw [hr]
    rfl
  · exact push_documents_run_total outcomes ⟨0, 0, 0, 0⟩
  · have h := push_stats_total outcomes ⟨0, 0, 0, 0⟩
    simpa [push_documents_stats] using h
  · have h := push_stats_errors outcomes ⟨0, 0, 0, 0⟩
    simpa [push_documents_stats] using h

/-- Witness for the amended C9: a second conflict after a successful
re-fetch yields exactly one retry and a conflict (per-file error) result. -/
theorem c9_conflict_retry_amended_witness :
    push_file_meta PutResult.conflict (FetchResult.found []) PutResult.conflict
      = MetaOutcome.done PutResult.conflict 1 :=
  (c9_conflict_retry_amended PutResult.conflict (FetchResult.found [])
    PutResult.conflict []).2.2.1 [] rfl (by decide)

/-- Counterexample to claim C9 as stated: a retry PUT that fails with an
HTTP error other than 404/409 makes couchdb_request raise RuntimeError; the
exception escapes push_file, so the file is NOT reported as a per-file
error — the run is aborted — and one such abort kills the push_documents
loop with the remaining files unprocessed and no summary produced. -/
theorem c9_counterexample :
    push_file_meta PutResult.conflict (FetchResult.found []) PutResult.raised
      = MetaOutcome.aborted ∧
    push_documents_run [none, some FileOutcome.created] ⟨0, 0, 0, 0⟩ = none := by
  constructor
  · rfl
  · rfl

/-! ## Claim C10: base64 detection on pull -/

/-- Claim C10: `try_decode_base64` returns the input as text whenever it
contains a newline or is shorter than 4 characters, or when the strict
base64 decode fails; when a single-line input of length ≥ 4 decodes, the
decoded bytes come back as text exactly when they are valid UTF-8, and as
raw binary otherwise. -/
theorem c10_try_decode_base64 (content : List Nat) :
    ((10 ∈ content ∨ content.length < 4) →
      try_decode_base64 content = (DecodedContent.text content, false)) ∧
    (¬(10 ∈ content ∨ content.length < 4) → b64decode_strict content = none →
      try_decode_base64 content = (DecodedContent.text content, false)) ∧
    (∀ bs cps, ¬(10 ∈ content ∨ content.length < 4) →
      b64decode_strict content = some bs → utf8DecodeStrict bs = some cps →
      try_decode_base64 content = (DecodedContent.text cps, false)) ∧
    (∀ bs, ¬(10 ∈ content ∨ content.length < 4) →
      b64decode_strict content = some bs → utf8DecodeStrict bs = none →
      try_decode_base64 content = (DecodedContent.binary bs, true)) := by
  refine ⟨?_, ?_, ?_, ?_⟩ <;> unfold try_decode_base64
  · intro h
    rw [if_pos h]
  · intro h hb
    rw [if_neg h]
    simp only [hb]
  · intro bs cps h hb hu
    rw [if_neg h]
    simp only [hb, hu]
  · intro bs h hb hu
    rw [if_neg h]
    simp only [hb, hu]

/-- Witness for C10: `"aGVsbG8="` decodes to the UTF-8 text `"hello"`. -/
theorem c10_try_decode_base64_witness :
    try_decode_base64 [97, 71, 86, 115, 98, 71, 56, 61]
      = (DecodedContent.text [104, 101, 108, 108, 111], false) :=
  (c10_try_decode_base64 [97, 71, 86, 115, 98, 71, 56, 61]).2.2.1
    [104, 101, 108, 108, 111] [104, 101, 108, 108, 111]
    (by decide) (by decide) (by decide)

end VaultSync
